import Mathlib

/-!
Verification of the quadsyncd reconciliation agent against its specification.

Paths are modelled as lists of components (`Path := List String`): every path
the planner handles is either produced by `filepath.Walk` under a fixed root or
by `filepath.Join` of a directory with a relative path, so path cleaning is the
identity and `filepath.Join dir rel` is plain list append.  Go maps are
modelled as association lists; where a theorem needs the keys to be distinct
(which holds for every Go map) this is an explicit hypothesis.  File hashing
(`fileHash`, SHA-256 of the file bytes) is abstracted as a function parameter
`fileHash : Path → String`, since the planner only compares its results.
-/

namespace Quadsyncd

/-- A filesystem path, as its list of components. -/
abbrev Path := List String

/-- `ManagedFile` from `internal/sync/types.go`: one entry of the persisted
manifest, keyed elsewhere by destination path. -/
structure ManagedFile where
  sourcePath : Path
  hash : String
deriving DecidableEq, Repr

/-- `State` from `internal/sync`: the persisted manifest.  `managedFiles` is a
Go `map[string]ManagedFile`, modelled as an association list. -/
structure SyncState where
  commit : String
  managedFiles : List (Path × ManagedFile)
deriving DecidableEq, Repr

/-- `FileOp` from `internal/sync`: one planned operation.  Go zero values for
the fields a Delete op leaves unset are `[]` and `""`. -/
structure FileOp where
  sourcePath : Path
  destPath : Path
  hash : String
deriving DecidableEq, Repr

/-- `Plan` from `internal/sync`: the three operation lists. -/
structure Plan where
  add : List FileOp
  update : List FileOp
  delete : List FileOp
deriving DecidableEq, Repr

/-- Association-list lookup, the model of Go map indexing
`prevState.ManagedFiles[destPath]`. -/
def lookupMF : List (Path × ManagedFile) → Path → Option ManagedFile
  | [], _ => none
  | kv :: rest, d => if kv.1 = d then some kv.2 else lookupMF rest d

/-- `quadlet.RelativePath` (a thin wrapper over `filepath.Rel`) for the only
case the engine exercises: `target` lies under `baseDir`, so the relative path
is `target` with the `baseDir` components removed. -/
def relativePath (baseDir target : Path) : Path :=
  target.drop baseDir.length

/-- The `desiredFiles` map of `buildPlan` (`internal/sync/sync.go`):
destination path (`filepath.Join(e.cfg.Paths.QuadletDir, relPath)`) paired
with the source path it came from, one entry per discovered source file. -/
def desiredOf (qdir srcDir : Path) (sourceFiles : List Path) : List (Path × Path) :=
  sourceFiles.map (fun src => (qdir ++ relativePath srcDir src, src))

/-- The `plan.Add` list of `buildPlan`: desired entries with no previous
manifest entry for their destination. -/
def addOps (prev : List (Path × ManagedFile)) (fileHash : Path → String)
    (desired : List (Path × Path)) : List FileOp :=
  (desired.filter (fun dv => (lookupMF prev dv.1).isNone)).map
    (fun dv => ⟨dv.2, dv.1, fileHash dv.2⟩)

/-- The `plan.Update` list of `buildPlan`: desired entries whose previous
manifest entry exists and records a different hash (`prev.Hash != hash`). -/
def updateOps (prev : List (Path × ManagedFile)) (fileHash : Path → String)
    (desired : List (Path × Path)) : List FileOp :=
  (desired.filter (fun dv =>
      match lookupMF prev dv.1 with
      | some m => m.hash ≠ fileHash dv.2
      | none => false)).map
    (fun dv => ⟨dv.2, dv.1, fileHash dv.2⟩)

/-- The `plan.Delete` list of `buildPlan`: produced only when prune is on, one
op per previous-manifest key absent from the desired map; only `DestPath` is
set (the other fields keep their Go zero values). -/
def deleteOps (prune : Bool) (prev : List (Path × ManagedFile))
    (desired : List (Path × Path)) : List FileOp :=
  if prune then
    (prev.filter (fun kv => ¬ desired.any (fun dv => dv.1 = kv.1))).map
      (fun kv => ⟨[], kv.1, ""⟩)
  else []

/-- `Engine.buildPlan` (`internal/sync/sync.go`), with file discovery supplied
as the `sourceFiles` input and hashing abstracted as `fileHash`.  The Go loop
appends to `plan.Add`/`plan.Update` while iterating the desired map once and
to `plan.Delete` while iterating the previous manifest once; each list here is
that same selection, written per list. -/
def buildPlan (qdir srcDir : Path) (prune : Bool)
    (prev : List (Path × ManagedFile)) (sourceFiles : List Path)
    (fileHash : Path → String) : Plan :=
  let desired := desiredOf qdir srcDir sourceFiles
  ⟨addOps prev fileHash desired, updateOps prev fileHash desired,
    deleteOps prune prev desired⟩

/-! ## Applier model

`applyPlan` (`internal/sync/sync.go`) mutates the destination directory, whose
contents we model as a partial map `Path → Option String` from path to file
bytes.  `copyFile` streams the source into a private temp file in the
destination's directory and renames it over the destination, so its effect on
destination-directory contents is exactly "the destination path now holds the
source bytes"; `os.Remove` on a delete removes the entry.  `srcRead` models
reading a source file (its error path aborts the apply and touches nothing
further, so the frame facts below also cover every aborted run's effects). -/

/-- Point update of the destination-directory contents (the rename target of
`copyFile`, or `os.WriteFile`). -/
def fsWrite (fs : Path → Option String) (p : Path) (v : String) : Path → Option String :=
  fun q => if q = p then some v else fs q

/-- Point removal of a destination-directory entry (`os.Remove`; absence is
tolerated, so this is total). -/
def fsErase (fs : Path → Option String) (p : Path) : Path → Option String :=
  fun q => if q = p then none else fs q

/-- `Engine.copyFile`'s effect on destination-directory contents: `dst` now
holds the bytes of `src`. -/
def copyFileFS (srcRead : Path → Option String) (fs : Path → Option String)
    (src dst : Path) : Path → Option String :=
  fsWrite fs dst ((srcRead src).getD "")

/-- `Engine.applyPlan`: all adds, then all updates (both via `copyFile`), then
all deletes (via `os.Remove`). -/
def applyPlanFS (srcRead : Path → Option String) (plan : Plan)
    (fs : Path → Option String) : Path → Option String :=
  let fs1 := plan.add.foldl
    (fun acc op => copyFileFS srcRead acc op.sourcePath op.destPath) fs
  let fs2 := plan.update.foldl
    (fun acc op => copyFileFS srcRead acc op.sourcePath op.destPath) fs1
  plan.delete.foldl (fun acc op => fsErase acc op.destPath) fs2

/-! ## Helper lemmas about the planner's operation lists -/

theorem mem_addOps {prev : List (Path × ManagedFile)} {fileHash : Path → String}
    {desired : List (Path × Path)} {op : FileOp} (h : op ∈ addOps prev fileHash desired) :
    ∃ dv ∈ desired, op.destPath = dv.1 ∧ lookupMF prev dv.1 = none := by
  simp only [addOps, List.mem_map, List.mem_filter] at h
  obtain ⟨dv, ⟨hmem, hnone⟩, rfl⟩ := h
  exact ⟨dv, hmem, rfl, Option.isNone_iff_eq_none.mp (by simpa using hnone)⟩

theorem mem_updateOps {prev : List (Path × ManagedFile)} {fileHash : Path → String}
    {desired : List (Path × Path)} {op : FileOp} (h : op ∈ updateOps prev fileHash desired) :
    ∃ dv ∈ desired, op.destPath = dv.1 ∧
      ∃ m, lookupMF prev dv.1 = some m ∧ m.hash ≠ fileHash dv.2 := by
  simp only [updateOps, List.mem_map, List.mem_filter] at h
  obtain ⟨dv, ⟨hmem, hcond⟩, rfl⟩ := h
  refine ⟨dv, hmem, rfl, ?_⟩
  cases hlk : lookupMF prev dv.1 with
  | none => rw [hlk] at hcond; simp at hcond
  | some m =>
    rw [hlk] at hcond
    refine ⟨m, rfl, ?_⟩
    simpa [decide_eq_true_eq] using hcond

theorem mem_deleteOps {prune : Bool} {prev : List (Path × ManagedFile)}
    {desired : List (Path × Path)} {op : FileOp} (h : op ∈ deleteOps prune prev desired) :
    ∃ kv ∈ prev, op.destPath = kv.1 ∧ ∀ dv ∈ desired, dv.1 ≠ kv.1 := by
  cases prune with
  | false => simp [deleteOps] at h
  | true =>
    simp only [deleteOps, if_true, List.mem_map, List.mem_filter] at h
    obtain ⟨kv, ⟨hmem, hno⟩, rfl⟩ := h
    refine ⟨kv, hmem, rfl, ?_⟩
    intro dv hdv
    by_contra heq
    have : desired.any (fun dv => dv.1 = kv.1) = true := by
      exact List.any_eq_true.mpr ⟨dv, hdv, by simpa using heq⟩
    simp [this] at hno

theorem foldl_copy_frame (srcRead : Path → Option String) (ops : List FileOp)
    (p : Path) :
    ∀ fs : Path → Option String, (∀ op ∈ ops, op.destPath ≠ p) →
      (ops.foldl (fun acc op => copyFileFS srcRead acc op.sourcePath op.destPath) fs) p
        = fs p := by
  induction ops with
  | nil => intro fs _; rfl
  | cons o os ih =>
    intro fs h
    simp only [List.foldl_cons]
    rw [ih _ (fun op hop => h op (List.mem_cons_of_mem _ hop))]
    have hne : p ≠ o.destPath := fun heq => h o (List.mem_cons_self _ _) heq.symm
    simp [copyFileFS, fsWrite, hne]

theorem foldl_erase_frame (ops : List FileOp) (p : Path) :
    ∀ fs : Path → Option String, (∀ op ∈ ops, op.destPath ≠ p) →
      (ops.foldl (fun acc op => fsErase acc op.destPath) fs) p = fs p := by
  induction ops with
  | nil => intro fs _; rfl
  | cons o os ih =>
    intro fs h
    simp only [List.foldl_cons]
    rw [ih _ (fun op hop => h op (List.mem_cons_of_mem _ hop))]
    have hne : p ≠ o.destPath := fun heq => h o (List.mem_cons_self _ _) heq.symm
    simp [fsErase, hne]

/-- C1: applying a plan built from a previous manifest never touches a
destination path outside the plan's frame: every Delete destination is a key
of the previous manifest, every Add/Update destination is a discovered
destination, and the destination-directory contents at any path that is
neither a manifest key nor a discovered destination are unchanged by
`applyPlan` (such files are never read by it either: the applier reads only
source paths). -/
theorem applier_touches_only_planned_paths
    (qdir srcDir : Path) (prune : Bool) (prev : List (Path × ManagedFile))
    (sourceFiles : List Path) (fileHash : Path → String)
    (srcRead : Path → Option String) (fs : Path → Option String)
    (plan : Plan) (hplan : plan = buildPlan qdir srcDir prune prev sourceFiles fileHash) :
    (∀ op ∈ plan.delete, ∃ mf, (op.destPath, mf) ∈ prev) ∧
    (∀ op ∈ plan.add ++ plan.update,
        op.destPath ∈ (desiredOf qdir srcDir sourceFiles).map Prod.fst) ∧
    (∀ p : Path, (∀ mf, (p, mf) ∉ prev) →
        p ∉ (desiredOf qdir srcDir sourceFiles).map Prod.fst →
        applyPlanFS srcRead plan fs p = fs p) := by
  have hdelmem : ∀ op ∈ plan.delete, ∃ kv ∈ prev, op.destPath = kv.1 := by
    intro op hop
    rw [hplan] at hop
    simp only [buildPlan] at hop
    obtain ⟨kv, hkv, hdest, -⟩ := mem_deleteOps hop
    exact ⟨kv, hkv, hdest⟩
  have haddmem : ∀ op ∈ plan.add,
      op.destPath ∈ (desiredOf qdir srcDir sourceFiles).map Prod.fst := by
    intro op hop
    rw [hplan] at hop
    simp only [buildPlan] at hop
    obtain ⟨dv, hdv, hdest, -⟩ := mem_addOps hop
    exact List.mem_map.mpr ⟨dv, hdv, hdest.symm⟩
  have hupdmem : ∀ op ∈ plan.update,
      op.destPath ∈ (desiredOf qdir srcDir sourceFiles).map Prod.fst := by
    intro op hop
    rw [hplan] at hop
    simp only [buildPlan] at hop
    obtain ⟨dv, hdv, hdest, -⟩ := mem_updateOps hop
    exact List.mem_map.mpr ⟨dv, hdv, hdest.symm⟩
  refine ⟨?_, ?_, ?_⟩
  · intro op hop
    obtain ⟨kv, hkv, hdest⟩ := hdelmem op hop
    exact ⟨kv.2, by rw [hdest]; simpa using hkv⟩
  · intro op hop
    rcases List.mem_append.mp hop with h | h
    · exact haddmem op h
    · exact hupdmem op h
  · intro p hprev hdesired
    have hdel : ∀ op ∈ plan.delete, op.destPath ≠ p := by
      intro op hop heq
      obtain ⟨kv, hkv, hdest⟩ := hdelmem op hop
      apply hprev kv.2
      have : kv = (p, kv.2) := by
        rw [← heq, hdest]
      rw [← this]
      exact hkv
    have hadd : ∀ op ∈ plan.add, op.destPath ≠ p := by
      intro op hop heq
      exact hdesired (heq ▸ haddmem op hop)
    have hupd : ∀ op ∈ plan.update, op.destPath ≠ p := by
      intro op hop heq
      exact hdesired (heq ▸ hupdmem op hop)
    simp only [applyPlanFS]
    rw [foldl_erase_frame plan.delete p _ hdel,
      foldl_copy_frame srcRead plan.update p _ hupd,
      foldl_copy_frame srcRead plan.add p fs hadd]

/-- Witness for `applier_touches_only_planned_paths` at a concrete instance:
one manifest entry, one discovered file, prune on, and an unmanaged probe path
that the apply leaves alone. -/
theorem applier_touches_only_planned_paths_witness :
    let prev : List (Path × ManagedFile) := [(["q", "a.container"], ⟨["a.container"], "h1"⟩)]
    let plan := buildPlan ["q"] ["s"] true prev [["s", "b.container"]] (fun _ => "h2")
    (∀ op ∈ plan.delete, ∃ mf, (op.destPath, mf) ∈ prev) ∧
    (∀ op ∈ plan.add ++ plan.update,
        op.destPath ∈ (desiredOf ["q"] ["s"] [["s", "b.container"]]).map Prod.fst) ∧
    (∀ p : Path, (∀ mf, (p, mf) ∉ prev) →
        p ∉ (desiredOf ["q"] ["s"] [["s", "b.container"]]).map Prod.fst →
        applyPlanFS (fun _ => some "data") plan (fun _ => none) p = (fun _ => none : Path → Option String) p) :=
  applier_touches_only_planned_paths ["q"] ["s"] true
    [(["q", "a.container"], ⟨["a.container"], "h1"⟩)] [["s", "b.container"]]
    (fun _ => "h2") (fun _ => some "data") (fun _ => none) _ rfl

/-- The destination paths of the Add list are the desired keys without a
previous manifest entry. -/
theorem addOps_dests (prev : List (Path × ManagedFile)) (fileHash : Path → String)
    (desired : List (Path × Path)) :
    (addOps prev fileHash desired).map FileOp.destPath
      = (desired.filter (fun dv => (lookupMF prev dv.1).isNone)).map Prod.fst := by
  simp [addOps, List.map_map]

/-- The destination paths of the Update list are the desired keys whose
previous entry records a different hash. -/
theorem updateOps_dests (prev : List (Path × ManagedFile)) (fileHash : Path → String)
    (desired : List (Path × Path)) :
    (updateOps prev fileHash desired).map FileOp.destPath
      = (desired.filter (fun dv =>
          match lookupMF prev dv.1 with
          | some m => m.hash ≠ fileHash dv.2
          | none => false)).map Prod.fst := by
  simp [updateOps, List.map_map]

/-- The destination paths of the Delete list are previous-manifest keys. -/
theorem deleteOps_dests (prune : Bool) (prev : List (Path × ManagedFile))
    (desired : List (Path × Path)) :
    (deleteOps prune prev desired).map FileOp.destPath
      = if prune then
          (prev.filter (fun kv => ¬ desired.any (fun dv => dv.1 = kv.1))).map Prod.fst
        else [] := by
  cases prune <;> simp [deleteOps, List.map_map]

/-- C8: for every previous manifest (with distinct keys, as a Go map has) and
every discovered file set (distinct paths, all under the source root, as
`filepath.Walk` yields), the plan's Add, Update and Delete destination paths
are pairwise disjoint and each destination occurs at most once across the
three lists. -/
theorem plan_dest_paths_nodup
    (qdir srcDir : Path) (prune : Bool) (prev : List (Path × ManagedFile))
    (sourceFiles : List Path) (fileHash : Path → String)
    (hprev : (prev.map Prod.fst).Nodup)
    (hsrc : sourceFiles.Nodup)
    (hunder : ∀ s ∈ sourceFiles, s.take srcDir.length = srcDir) :
    (((buildPlan qdir srcDir prune prev sourceFiles fileHash).add ++
      (buildPlan qdir srcDir prune prev sourceFiles fileHash).update ++
      (buildPlan qdir srcDir prune prev sourceFiles fileHash).delete).map
        FileOp.destPath).Nodup := by
  set desired := desiredOf qdir srcDir sourceFiles with hdes
  -- the desired map's keys are distinct
  have hD : (desired.map Prod.fst).Nodup := by
    have : desired.map Prod.fst
        = sourceFiles.map (fun s => qdir ++ s.drop srcDir.length) := by
      simp [hdes, desiredOf, relativePath, List.map_map]
    rw [this]
    refine hsrc.map_on ?_
    intro x hx y hy hxy
    have hx' := hunder x hx
    have hy' := hunder y hy
    have hdrop : x.drop srcDir.length = y.drop srcDir.length :=
      List.append_cancel_left hxy
    calc x = x.take srcDir.length ++ x.drop srcDir.length :=
            (List.take_append_drop _ _).symm
      _ = y.take srcDir.length ++ y.drop srcDir.length := by rw [hx', hy', hdrop]
      _ = y := List.take_append_drop _ _
  have hAddSub : List.Sublist
      ((addOps prev fileHash desired).map FileOp.destPath) (desired.map Prod.fst) := by
    rw [addOps_dests]
    exact (List.filter_sublist _).map _
  have hUpdSub : List.Sublist
      ((updateOps prev fileHash desired).map FileOp.destPath) (desired.map Prod.fst) := by
    rw [updateOps_dests]
    exact (List.filter_sublist _).map _
  have hDelSub : List.Sublist
      ((deleteOps prune prev desired).map FileOp.destPath) (prev.map Prod.fst) := by
    rw [deleteOps_dests]
    cases prune with
    | false => simp
    | true => simpa using (List.filter_sublist _).map Prod.fst
  -- membership characterizations
  have hAddMem : ∀ x ∈ (addOps prev fileHash desired).map FileOp.destPath,
      lookupMF prev x = none ∧ ∃ dv ∈ desired, dv.1 = x := by
    intro x hx
    rw [addOps_dests] at hx
    obtain ⟨dv, hdv, rfl⟩ := List.mem_map.mp hx
    obtain ⟨hmem, hcond⟩ := List.mem_filter.mp hdv
    exact ⟨Option.isNone_iff_eq_none.mp (by simpa using hcond), dv, hmem, rfl⟩
  have hUpdMem : ∀ x ∈ (updateOps prev fileHash desired).map FileOp.destPath,
      (∃ m, lookupMF prev x = some m) ∧ ∃ dv ∈ desired, dv.1 = x := by
    intro x hx
    rw [updateOps_dests] at hx
    obtain ⟨dv, hdv, rfl⟩ := List.mem_map.mp hx
    obtain ⟨hmem, hcond⟩ := List.mem_filter.mp hdv
    refine ⟨?_, dv, hmem, rfl⟩
    cases hlk : lookupMF prev dv.1 with
    | none => rw [hlk] at hcond; simp at hcond
    | some m => exact ⟨m, rfl⟩
  have hDelMem : ∀ x ∈ (deleteOps prune prev desired).map FileOp.destPath,
      ∀ dv ∈ desired, dv.1 ≠ x := by
    intro x hx dv hdv
    rw [deleteOps_dests] at hx
    cases prune with
    | false => simp at hx
    | true =>
      simp only [if_true] at hx
      obtain ⟨kv, hkv, rfl⟩ := List.mem_map.mp hx
      obtain ⟨-, hno⟩ := List.mem_filter.mp hkv
      intro heq
      have : desired.any (fun dv => dv.1 = kv.1) = true :=
        List.any_eq_true.mpr ⟨dv, hdv, by simpa using heq⟩
      simp [this] at hno
  have hplanadd : (buildPlan qdir srcDir prune prev sourceFiles fileHash).add
      = addOps prev fileHash desired := by simp [buildPlan, hdes]
  have hplanupd : (buildPlan qdir srcDir prune prev sourceFiles fileHash).update
      = updateOps prev fileHash desired := by simp [buildPlan, hdes]
  have hplandel : (buildPlan qdir srcDir prune prev sourceFiles fileHash).delete
      = deleteOps prune prev desired := by simp [buildPlan, hdes]
  rw [hplanadd, hplanupd, hplandel, List.map_append, List.map_append,
    List.nodup_append, List.nodup_append]
  refine ⟨⟨hAddSub.nodup hD, hUpdSub.nodup hD, ?_⟩, hDelSub.nodup hprev, ?_⟩
  · -- add dests disjoint from update dests
    intro x hxa hxu
    obtain ⟨hnone, -⟩ := hAddMem x hxa
    obtain ⟨⟨m, hsome⟩, -⟩ := hUpdMem x hxu
    rw [hnone] at hsome
    exact Option.noConfusion hsome
  · -- add and update dests disjoint from delete dests
    intro x hx hxd
    rcases List.mem_append.mp hx with hxa | hxu
    · obtain ⟨-, dv, hdv, hdx⟩ := hAddMem x hxa
      exact hDelMem x hxd dv hdv hdx
    · obtain ⟨-, dv, hdv, hdx⟩ := hUpdMem x hxu
      exact hDelMem x hxd dv hdv hdx

/-- Witness for `plan_dest_paths_nodup` at a concrete instance exercising all
three lists at once. -/
theorem plan_dest_paths_nodup_witness :
    (((buildPlan ["q"] ["s"] true
        [(["q", "old.container"], ⟨["old.container"], "h0"⟩),
         (["q", "upd.container"], ⟨["upd.container"], "h1"⟩)]
        [["s", "new.container"], ["s", "upd.container"]]
        (fun _ => "h2")).add ++
      (buildPlan ["q"] ["s"] true
        [(["q", "old.container"], ⟨["old.container"], "h0"⟩),
         (["q", "upd.container"], ⟨["upd.container"], "h1"⟩)]
        [["s", "new.container"], ["s", "upd.container"]]
        (fun _ => "h2")).update ++
      (buildPlan ["q"] ["s"] true
        [(["q", "old.container"], ⟨["old.container"], "h0"⟩),
         (["q", "upd.container"], ⟨["upd.container"], "h1"⟩)]
        [["s", "new.container"], ["s", "upd.container"]]
        (fun _ => "h2")).delete).map FileOp.destPath).Nodup :=
  plan_dest_paths_nodup ["q"] ["s"] true _ _ _ (by decide) (by decide) (by decide)

/-- A desired entry comes from a discovered source file: its key is the
destination directory joined with the source's relative path. -/
theorem mem_desiredOf {qdir srcDir : Path} {sourceFiles : List Path}
    {dv : Path × Path} (h : dv ∈ desiredOf qdir srcDir sourceFiles) :
    dv.2 ∈ sourceFiles ∧ dv.1 = qdir ++ dv.2.drop srcDir.length := by
  simp only [desiredOf, List.mem_map] at h
  obtain ⟨src, hsrc, rfl⟩ := h
  exact ⟨hsrc, rfl⟩

/-- C3 (amended): the planner performs no path-escape check and returns no
`PathEscape` error (no such error exists in the code); instead, every Add and
Update destination is the destination directory joined with a relative path,
hence inside the destination directory by construction, while every Delete
destination is copied verbatim from a previous-manifest key (and so lies
outside the destination directory exactly when the manifest key does). -/
theorem planner_dest_containment
    (qdir srcDir : Path) (prune : Bool) (prev : List (Path × ManagedFile))
    (sourceFiles : List Path) (fileHash : Path → String) :
    (∀ op ∈ (buildPlan qdir srcDir prune prev sourceFiles fileHash).add ++
        (buildPlan qdir srcDir prune prev sourceFiles fileHash).update,
      op.destPath.take qdir.length = qdir) ∧
    (∀ op ∈ (buildPlan qdir srcDir prune prev sourceFiles fileHash).delete,
      ∃ mf, (op.destPath, mf) ∈ prev) := by
  constructor
  · intro op hop
    have hdes : ∃ dv ∈ desiredOf qdir srcDir sourceFiles, op.destPath = dv.1 := by
      rcases List.mem_append.mp hop with h | h
      · simp only [buildPlan] at h
        obtain ⟨dv, hdv, hdest, -⟩ := mem_addOps h
        exact ⟨dv, hdv, hdest⟩
      · simp only [buildPlan] at h
        obtain ⟨dv, hdv, hdest, -⟩ := mem_updateOps h
        exact ⟨dv, hdv, hdest⟩
    obtain ⟨dv, hdv, hdest⟩ := hdes
    obtain ⟨-, hkey⟩ := mem_desiredOf hdv
    rw [hdest, hkey]
    exact List.take_left _ _
  · intro op hop
    simp only [buildPlan] at hop
    obtain ⟨kv, hkv, hdest, -⟩ := mem_deleteOps hop
    exact ⟨kv.2, by rw [hdest]; simpa using hkv⟩

/-- Witness for `planner_dest_containment` at a concrete instance with one
add, one update and one delete. -/
theorem planner_dest_containment_witness :
    (∀ op ∈ (buildPlan ["q"] ["s"] true
        [(["q", "u.container"], ⟨["u.container"], "h1"⟩),
         (["q", "d.container"], ⟨["d.container"], "h0"⟩)]
        [["s", "n.container"], ["s", "u.container"]] (fun _ => "h2")).add ++
        (buildPlan ["q"] ["s"] true
        [(["q", "u.container"], ⟨["u.container"], "h1"⟩),
         (["q", "d.container"], ⟨["d.container"], "h0"⟩)]
        [["s", "n.container"], ["s", "u.container"]] (fun _ => "h2")).update,
      op.destPath.take (["q"] : Path).length = ["q"]) ∧
    (∀ op ∈ (buildPlan ["q"] ["s"] true
        [(["q", "u.container"], ⟨["u.container"], "h1"⟩),
         (["q", "d.container"], ⟨["d.container"], "h0"⟩)]
        [["s", "n.container"], ["s", "u.container"]] (fun _ => "h2")).delete,
      ∃ mf, (op.destPath, mf) ∈
        [((["q", "u.container"] : Path), (⟨["u.container"], "h1"⟩ : ManagedFile)),
         (["q", "d.container"], ⟨["d.container"], "h0"⟩)]) :=
  planner_dest_containment ["q"] ["s"] true _ _ _

/-- C3 counterexample: with a previous manifest whose key lies outside the
destination directory and prune on, the planner returns — without any error —
a plan whose Delete destination lies outside the destination directory, so a
plan containing an escaping destination *is* returned for application and no
`PathEscape` error occurs. -/
theorem pathescape_counterexample :
    buildPlan ["q"] ["s"] true [(["etc", "passwd"], ⟨[], "h"⟩)] [] (fun _ => "")
      = ⟨[], [], [⟨[], ["etc", "passwd"], ""⟩]⟩ ∧
    ¬ (["etc", "passwd"] : Path).take (["q"] : Path).length = ["q"] := by
  constructor
  · decide
  · decide

/-- C5 (amended): a discovered source file whose hash equals the previous
manifest entry's hash for the same destination path is classified as
unchanged — it produces no Add, Update or Delete operation — regardless of
whether its relative source path differs from the entry's `source_path`; the
planner never consults `source_path`. -/
theorem same_hash_is_unchanged
    (qdir srcDir : Path) (prune : Bool) (prev : List (Path × ManagedFile))
    (sourceFiles : List Path) (fileHash : Path → String)
    (hunder : ∀ s ∈ sourceFiles, s.take srcDir.length = srcDir)
    (dest src : Path) (m : ManagedFile)
    (hdv : (dest, src) ∈ desiredOf qdir srcDir sourceFiles)
    (hm : lookupMF prev dest = some m)
    (hh : m.hash = fileHash src) :
    dest ∉ ((buildPlan qdir srcDir prune prev sourceFiles fileHash).add ++
      (buildPlan qdir srcDir prune prev sourceFiles fileHash).update ++
      (buildPlan qdir srcDir prune prev sourceFiles fileHash).delete).map
        FileOp.destPath := by
  intro hmem
  rw [List.map_append, List.map_append] at hmem
  obtain ⟨hsrcmem, hkey⟩ := mem_desiredOf hdv
  dsimp only at hsrcmem hkey
  rcases List.mem_append.mp hmem with hmem' | hdel
  · rcases List.mem_append.mp hmem' with hadd | hupd
    · -- an Add op needs no previous entry, but one exists
      obtain ⟨op, hop, hdest⟩ := List.mem_map.mp hadd
      simp only [buildPlan] at hop
      obtain ⟨dv, hdvmem, hdest', hnone⟩ := mem_addOps hop
      rw [← hdest, hdest'] at hm
      rw [hm] at hnone
      exact Option.noConfusion hnone
    · -- an Update op needs a differing hash, but the hashes agree
      obtain ⟨op, hop, hdest⟩ := List.mem_map.mp hupd
      simp only [buildPlan] at hop
      obtain ⟨dv, hdvmem, hdest', m', hsome, hne⟩ := mem_updateOps hop
      -- the desired entry at this key is the one for `src`
      obtain ⟨hdvsrc, hdvkey⟩ := mem_desiredOf hdvmem
      have hkeys : dv.1 = dest := by rw [← hdest, hdest']
      have hdrop : dv.2.drop srcDir.length = src.drop srcDir.length := by
        have h2 : qdir ++ dv.2.drop srcDir.length = qdir ++ src.drop srcDir.length := by
          rw [← hdvkey, hkeys]
          exact hkey
        exact List.append_cancel_left h2
      have hsrceq : dv.2 = src := by
        calc dv.2 = dv.2.take srcDir.length ++ dv.2.drop srcDir.length :=
              (List.take_append_drop _ _).symm
          _ = src.take srcDir.length ++ src.drop srcDir.length := by
              rw [hunder dv.2 hdvsrc, hunder src hsrcmem, hdrop]
          _ = src := List.take_append_drop _ _
      rw [hkeys] at hsome
      rw [hm] at hsome
      -- hsome : some m = some m'
      apply hne
      rw [hsrceq, ← Option.some.inj hsome]
      exact hh
  · -- a Delete op needs its key absent from the desired map, but it is there
    obtain ⟨op, hop, hdest⟩ := List.mem_map.mp hdel
    simp only [buildPlan] at hop
    obtain ⟨kv, hkv, hdest', hno⟩ := mem_deleteOps hop
    exact hno (dest, src) hdv (by rw [← hdest', hdest])

/-- Witness for `same_hash_is_unchanged`: a manifest entry whose `source_path`
differs from the discovered relative path but whose hash matches. -/
theorem same_hash_is_unchanged_witness :
    (["q", "a.container"] : Path) ∉
      ((buildPlan ["q"] ["s"] true
          [(["q", "a.container"], ⟨["x", "a.container"], "h1"⟩)]
          [["s", "a.container"]] (fun _ => "h1")).add ++
        (buildPlan ["q"] ["s"] true
          [(["q", "a.container"], ⟨["x", "a.container"], "h1"⟩)]
          [["s", "a.container"]] (fun _ => "h1")).update ++
        (buildPlan ["q"] ["s"] true
          [(["q", "a.container"], ⟨["x", "a.container"], "h1"⟩)]
          [["s", "a.container"]] (fun _ => "h1")).delete).map FileOp.destPath :=
  same_hash_is_unchanged ["q"] ["s"] true _ _ _ (by decide)
    ["q", "a.container"] ["s", "a.container"] ⟨["x", "a.container"], "h1"⟩
    (by decide) (by decide) rfl

/-- C5 counterexample: a discovered source file whose hash matches the
previous manifest entry for the same destination but whose relative source
path (`["a.container"]`) differs from the entry's `source_path`
(`["x", "a.container"]`) yields an empty plan — classified as unchanged, not
as an Update as the claim states. -/
theorem moved_source_same_hash_counterexample :
    buildPlan ["q"] ["s"] true
        [(["q", "a.container"], ⟨["x", "a.container"], "h1"⟩)]
        [["s", "a.container"]] (fun _ => "h1")
      = ⟨[], [], []⟩ ∧
    relativePath ["s"] ["s", "a.container"] ≠ (["x", "a.container"] : Path) ∧
    (fun _ => "h1" : Path → String) ["s", "a.container"]
      = (ManagedFile.mk ["x", "a.container"] "h1").hash := by
  refine ⟨by decide, by decide, rfl⟩

/-! ## State persistence

`saveState` and `copyFile` are modelled by the ordered list of filesystem
operations a successful run performs.  JSON marshalling
(`json.MarshalIndent(state, "", "  ")`, which cannot fail on this struct) is
abstracted as a function parameter. -/

/-- One filesystem operation, as issued by the engine. -/
inductive FsAction where
  | writeFile (path : Path) (data : String) (perm : Nat)
  | createTemp (dir : Path) (pat : String)
  | chmodFile (path : Path) (perm : Nat)
  | renameFile (src dst : Path)
  | removeFile (path : Path)
  | mkdirAll (dir : Path) (perm : Nat)
deriving DecidableEq, Repr

/-- Whether an action is a rename. -/
def FsAction.isRename : FsAction → Bool
  | .renameFile _ _ => true
  | _ => false

/-- Whether an action creates a temp file. -/
def FsAction.isTemp : FsAction → Bool
  | .createTemp _ _ => true
  | _ => false

/-- `Engine.copyFile`'s successful operation sequence (`internal/sync/sync.go`):
make the parent directory, create a temp file in the destination's directory,
stream the source bytes into it, set the source's mode on it, and rename it
over the destination.  `tmp` is the random temp-file leaf name. -/
def copyFileActions (tmp : String) (dst : Path) (data : String) (perm : Nat) :
    List FsAction :=
  [.mkdirAll dst.dropLast 493,
   .createTemp dst.dropLast ".quadsyncd-tmp-*",
   .writeFile (dst.dropLast ++ [tmp]) data 384,
   .chmodFile (dst.dropLast ++ [tmp]) perm,
   .renameFile (dst.dropLast ++ [tmp]) dst]

/-- `Engine.saveState` (`internal/sync/sync.go`): a single direct
`os.WriteFile(e.cfg.StateFilePath(), data, 0644)` of the marshalled state. -/
def saveStateActions (statePath : Path) (marshal : SyncState → String)
    (st : SyncState) : List FsAction :=
  [.writeFile statePath (marshal st) 420]

/-- The applier's per-file write really is temp-file-then-rename (contrast for
the state store below). -/
theorem copyFile_uses_temp_and_rename (tmp : String) (dst : Path) (data : String)
    (perm : Nat) :
    ((copyFileActions tmp dst data perm).any (fun a => a.isTemp)) = true ∧
    ((copyFileActions tmp dst data perm).any (fun a => a.isRename)) = true := by
  constructor <;> simp [copyFileActions, FsAction.isTemp, FsAction.isRename]

/-- C2 (amended): `saveState` persists the manifest with one direct
`os.WriteFile` call to the state-file path (mode 0644); it creates no temp
file and performs no rename, so a failed save can leave the target file
partially written rather than unchanged. -/
theorem saveState_writes_directly (statePath : Path) (marshal : SyncState → String)
    (st : SyncState) :
    saveStateActions statePath marshal st
        = [FsAction.writeFile statePath (marshal st) 420] ∧
    ((saveStateActions statePath marshal st).all
        (fun a => !a.isRename && !a.isTemp)) = true := by
  constructor
  · rfl
  · simp [saveStateActions, FsAction.isRename, FsAction.isTemp]

/-- C2 counterexample: at a concrete state, `saveState`'s operation sequence
is a single direct write of the marshalled bytes to the target — it contains
no temp-file creation and no rename, contradicting the claimed
temp-then-atomic-rename write. -/
theorem save_not_atomic_counterexample :
    saveStateActions ["state", "state.json"] (fun _ => "{}") ⟨"c0", []⟩
        = [FsAction.writeFile ["state", "state.json"] "{}" 420] ∧
    ((saveStateActions ["state", "state.json"] (fun _ => "{}") ⟨"c0", []⟩).any
        (fun a => a.isTemp)) = false ∧
    ((saveStateActions ["state", "state.json"] (fun _ => "{}") ⟨"c0", []⟩).any
        (fun a => a.isRename)) = false := by
  refine ⟨rfl, by decide, by decide⟩

/-! ## The reconciliation pass (`Engine.Run`)

`Run` is modelled over an environment recording the outcome each collaborator
call would produce; `Except.error` carries the Go error text and `runEngine`
reproduces `Run`'s wrapping and propagation decisions exactly. -/

/-- Outcomes of the collaborator calls `Engine.Run` makes, in program order. -/
structure RunEnv where
  mkdirState : Except String Unit
  ensureCheckout : Except String String
  loadStateR : Except String SyncState
  discoverHashPlan : SyncState → Except String Plan
  isAvailable : Except String Bool
  applyPlanR : Plan → Except String Unit
  validateQuadlets : Except String Unit
  saveStateR : SyncState → Except String Unit
  daemonReload : Except String Unit
  handleRestartsR : Plan → SyncState → Except String Unit

/-- `Run`'s recovery for a failed state load: log a warning and treat the sync
as fresh (`&State{ManagedFiles: make(map[string]ManagedFile)}`). -/
def loadedState (env : RunEnv) : SyncState :=
  match env.loadStateR with
  | .error _ => ⟨"", []⟩
  | .ok s => s

/-- Association-list removal, the model of Go `delete(m, k)`. -/
def eraseKey (l : List (Path × ManagedFile)) (k : Path) : List (Path × ManagedFile) :=
  l.filter (fun kv => ¬(kv.1 = k))

/-- Association-list upsert, the model of Go `m[k] = v`. -/
def setKey (l : List (Path × ManagedFile)) (k : Path) (v : ManagedFile) :
    List (Path × ManagedFile) :=
  if l.any (fun kv => kv.1 = k) then
    l.map (fun kv => if kv.1 = k then (k, v) else kv)
  else l ++ [(k, v)]

/-- `Engine.buildState`: copy the previous entries, drop the delete targets,
then upsert every add/update with its relative source path and hash. -/
def buildState (srcDir : Path) (prev : Option SyncState) (plan : Plan)
    (commit : String) : SyncState :=
  let base := match prev with
    | some p => p.managedFiles
    | none => []
  let afterDel := plan.delete.foldl (fun acc op => eraseKey acc op.destPath) base
  let afterSet := (plan.add ++ plan.update).foldl
    (fun acc op => setKey acc op.destPath ⟨relativePath srcDir op.sourcePath, op.hash⟩)
    afterDel
  ⟨commit, afterSet⟩

/-- `Engine.Run` (`internal/sync/sync.go`): the full pass, with each
collaborator call's outcome drawn from `env`.  Error wrapping follows the
`fmt.Errorf` texts; a restart failure is only logged
(`e.logger.Warn("restart operations had issues", ...)`) and the pass still
returns nil. -/
def runEngine (dryRun : Bool) (srcDir : Path) (env : RunEnv) : Except String Unit :=
  match env.mkdirState with
  | .error e => .error ("failed to create state directory: " ++ e)
  | .ok _ =>
  match env.ensureCheckout with
  | .error e => .error ("failed to checkout repository: " ++ e)
  | .ok commit =>
  let prevState := loadedState env
  match env.discoverHashPlan prevState with
  | .error e => .error ("failed to build sync plan: " ++ e)
  | .ok plan =>
  if dryRun then .ok ()
  else
  match env.isAvailable with
  | .error e => .error ("systemd user session not available: " ++ e)
  | .ok available =>
  if ¬ available then .error "systemd user session not available: "
  else
  match env.applyPlanR plan with
  | .error e => .error ("failed to apply sync plan: " ++ e)
  | .ok _ =>
  match env.validateQuadlets with
  | .error e => .error ("failed to validate quadlet definitions: " ++ e)
  | .ok _ =>
  let newState := buildState srcDir (some prevState) plan commit
  match env.saveStateR newState with
  | .error e => .error ("failed to save state: " ++ e)
  | .ok _ =>
  match env.daemonReload with
  | .error e => .error ("failed to reload systemd: " ++ e)
  | .ok _ =>
  match env.handleRestartsR plan newState with
  | .error _ => .ok ()
  | .ok _ => .ok ()

/-- C6: in a non-dry-run pass where every step through daemon-reload
succeeds, a failing try-restart step does not change the overall result: the
pass still returns success, the restart failure being only logged. -/
theorem restart_failure_is_nonfatal (srcDir : Path) (env : RunEnv)
    (commit : String) (plan : Plan) (msg : String)
    (hmk : env.mkdirState = .ok ())
    (hco : env.ensureCheckout = .ok commit)
    (hpl : env.discoverHashPlan (loadedState env) = .ok plan)
    (hav : env.isAvailable = .ok true)
    (hap : env.applyPlanR plan = .ok ())
    (hva : env.validateQuadlets = .ok ())
    (hsv : env.saveStateR (buildState srcDir (some (loadedState env)) plan commit) = .ok ())
    (hre : env.daemonReload = .ok ())
    (hrf : env.handleRestartsR plan
        (buildState srcDir (some (loadedState env)) plan commit) = .error msg) :
    runEngine false srcDir env = .ok () := by
  simp only [runEngine, hmk, hco, hpl, hav, hap, hva, hsv, hre, hrf]
  simp

/-- Witness for `restart_failure_is_nonfatal`: a concrete environment whose
try-restart call fails while everything else succeeds. -/
theorem restart_failure_is_nonfatal_witness :
    runEngine false ["s"]
      ⟨.ok (), .ok "c1", .ok ⟨"c0", []⟩, fun _ => .ok ⟨[], [], []⟩, .ok true,
       fun _ => .ok (), .ok (), fun _ => .ok (), .ok (),
       fun _ _ => .error "try-restart failed"⟩ = .ok () :=
  restart_failure_is_nonfatal ["s"] _ "c1" ⟨[], [], []⟩ "try-restart failed"
    rfl rfl rfl rfl rfl rfl rfl rfl rfl

/-! ## Unit-name derivation (`internal/quadlet/quadlet.go`)

These functions work on file-name strings, so here paths are Go strings with
`/` separators.  `filepathBase` and `filepathExt` transcribe Go's
`path/filepath` `Base` and `Ext` for slash-separated paths (no volume names):
`Ext` scans the final element backwards and returns the suffix from the last
dot, `Base` strips trailing separators and keeps the last element. -/

/-- `os.IsPathSeparator` on unix: the character is `/`. -/
def isSep (c : Char) : Bool := c = '/'

/-- Negation of `isSep`, the continue-condition of the backwards scans. -/
def notSep (c : Char) : Bool := ¬(c = '/')

/-- The continue-condition of `Ext`'s scan: not yet at a dot. -/
def notDot (c : Char) : Bool := ¬(c = '.')

/-- Go `filepath.Base`. -/
def filepathBase (p : String) : String :=
  if p = "" then "."
  else
    let r := p.data.reverse.dropWhile isSep
    let b := r.takeWhile notSep
    if b = [] then "/" else String.mk b.reverse

/-- Go `filepath.Ext`. -/
def filepathExt (p : String) : String :=
  let seg := p.data.reverse.takeWhile notSep
  let upto := seg.takeWhile notDot
  if upto.length = seg.length then "" else String.mk ((seg.take (upto.length + 1)).reverse)

/-- Go `strings.TrimSuffix`. -/
def goTrimSuffix (s suf : String) : String :=
  if s.data.reverse.take suf.data.length = suf.data.reverse
  then String.mk ((s.data.reverse.drop suf.data.length).reverse)
  else s

/-- The `unitServiceSuffix` map of `internal/quadlet/quadlet.go`; a Go map
lookup yields the zero value `""` for the extensions absent from it
(.container, .kube, .pod). -/
def unitServiceSuffix (ext : String) : String :=
  if ext = ".volume" then "-volume"
  else if ext = ".network" then "-network"
  else if ext = ".image" then "-image"
  else if ext = ".build" then "-build"
  else ""

/-- `quadlet.UnitNameFromQuadlet`: base name, strip its extension, append the
type-specific infix and `.service`. -/
def UnitNameFromQuadlet (quadletPath : String) : String :=
  let base := filepathBase quadletPath
  let ext := filepathExt base
  let nameWithoutExt := goTrimSuffix base ext
  nameWithoutExt ++ unitServiceSuffix ext ++ ".service"

/-- When the final path element is nonempty, `filepathBase` returns exactly
that element. -/
theorem filepathBase_eq_seg (p : String)
    (hseg : p.data.reverse.takeWhile notSep ≠ []) :
    filepathBase p = String.mk (p.data.reverse.takeWhile notSep).reverse := by
  have hp : ¬ (p = "") := by
    intro he
    rw [he] at hseg
    simp at hseg
  obtain ⟨c, r', hrev⟩ : ∃ c r', p.data.reverse = c :: r' := by
    cases hrev : p.data.reverse with
    | nil => rw [hrev] at hseg; simp at hseg
    | cons c r' => exact ⟨c, r', rfl⟩
  have hc : notSep c = true := by
    cases hval : notSep c with
    | true => rfl
    | false =>
      rw [hrev, List.takeWhile_cons, hval] at hseg
      simp at hseg
  have hcsep : isSep c = false := by
    simp only [notSep, decide_not] at hc
    simpa [isSep] using hc
  simp only [filepathBase, if_neg hp, hrev, List.dropWhile_cons, hcsep,
    List.takeWhile_cons, hc]
  simp [hc, List.takeWhile_cons]

/-- A file name with an extension keeps that extension after `filepathBase`:
`UnitNameFromQuadlet` takes `Ext` of the base, which agrees with `Ext` of the
full path whenever the latter is nonempty. -/
theorem filepathExt_filepathBase (p : String) (h : filepathExt p ≠ "") :
    filepathExt (filepathBase p) = filepathExt p := by
  have hseg : p.data.reverse.takeWhile notSep ≠ [] := by
    intro he
    apply h
    simp only [filepathExt, he]
    simp
  rw [filepathBase_eq_seg p hseg]
  simp only [filepathExt, List.reverse_reverse, List.takeWhile_idem]

/-- For any file name with a nonempty extension `e`, the unit name is the
base with `e` stripped, then the infix for `e`, then `.service`. -/
theorem unitName_eq_of_ext (p e : String) (he : filepathExt p = e) (hne : ¬ (e = "")) :
    UnitNameFromQuadlet p
      = goTrimSuffix (filepathBase p) e ++ unitServiceSuffix e ++ ".service" := by
  simp only [UnitNameFromQuadlet]
  rw [filepathExt_filepathBase p (by rw [he]; exact hne), he]

/-- C7: `UnitNameFromQuadlet` is total (a Lean function) and, on every file
name carrying one of the seven quadlet extensions, strips the final path
component's extension and appends the type-specific infix then `.service`,
exactly per the specification's table. -/
theorem unit_name_matches_table (p : String) :
    (filepathExt p = ".container" →
      UnitNameFromQuadlet p = goTrimSuffix (filepathBase p) ".container" ++ ".service") ∧
    (filepathExt p = ".kube" →
      UnitNameFromQuadlet p = goTrimSuffix (filepathBase p) ".kube" ++ ".service") ∧
    (filepathExt p = ".pod" →
      UnitNameFromQuadlet p = goTrimSuffix (filepathBase p) ".pod" ++ ".service") ∧
    (filepathExt p = ".volume" →
      UnitNameFromQuadlet p
        = goTrimSuffix (filepathBase p) ".volume" ++ "-volume" ++ ".service") ∧
    (filepathExt p = ".network" →
      UnitNameFromQuadlet p
        = goTrimSuffix (filepathBase p) ".network" ++ "-network" ++ ".service") ∧
    (filepathExt p = ".image" →
      UnitNameFromQuadlet p
        = goTrimSuffix (filepathBase p) ".image" ++ "-image" ++ ".service") ∧
    (filepathExt p = ".build" →
      UnitNameFromQuadlet p
        = goTrimSuffix (filepathBase p) ".build" ++ "-build" ++ ".service") := by
  refine ⟨?_, ?_, ?_, ?_, ?_, ?_, ?_⟩ <;> intro he <;>
    rw [unitName_eq_of_ext p _ he (by decide)] <;>
    simp [unitServiceSuffix]

/-- Witness for `unit_name_matches_table`: a no-infix type and an infix type
evaluated concretely. -/
theorem unit_name_matches_table_witness :
    UnitNameFromQuadlet "web.container" = "web.service" ∧
    UnitNameFromQuadlet "db.volume" = "db-volume.service" := by
  constructor
  · rw [(unit_name_matches_table "web.container").1 (by decide)]
    decide
  · rw [(unit_name_matches_table "db.volume").2.2.2.1 (by decide)]
    decide

/-! ## File discovery (`quadlet.DiscoverAllFiles`)

The source tree is modelled as a named tree; `filepath.Walk` visits the root
first and then recurses (in sorted order — the list order stands in for it;
none of the claims depend on ordering).  The walk callback skips every entry
whose name starts with `.` — returning `filepath.SkipDir` for directories
(pruning the subtree) and `nil` for files — *except* the root itself, guarded
by `path != dir`.  Directories are never appended to the result. -/

/-- A node of the source tree. -/
inductive Entry where
  | file (name : String)
  | dir (name : String) (children : List Entry)
deriving Repr

/-- `strings.HasPrefix(info.Name(), ".")`: the name's first character is a
dot. -/
def isHidden (n : String) : Bool :=
  match n.data with
  | [] => false
  | c :: _ => c = '.'

mutual

/-- The walk of one non-root entry: relative paths of the files kept below
it, with the hidden-name skip applied to the entry itself and its subtree. -/
def walkEntry : Entry → List (List String)
  | .file n => if isHidden n then [] else [[n]]
  | .dir n cs => if isHidden n then [] else (walkList cs).map (fun q => n :: q)

/-- The walk of a list of sibling non-root entries, in order. -/
def walkList : List Entry → List (List String)
  | [] => []
  | e :: es => walkEntry e ++ walkList es

end

mutual

/-- All file paths below an entry, hidden or not. -/
def allFilesEntry : Entry → List (List String)
  | .file n => [[n]]
  | .dir n cs => (allFilesList cs).map (fun q => n :: q)

/-- All file paths below a list of sibling entries. -/
def allFilesList : List Entry → List (List String)
  | [] => []
  | e :: es => allFilesEntry e ++ allFilesList es

end

/-- `quadlet.DiscoverAllFiles` on root `rootPath`: the root entry itself is
exempt from the hidden check (`path != dir`) and, being a directory, is never
appended; a file root is visited with `path == dir` and collected. -/
def DiscoverAllFiles (rootPath : List String) : Entry → List (List String)
  | .file _ => [rootPath]
  | .dir _ cs => (walkList cs).map (fun q => rootPath ++ q)

mutual

/-- The skipping walk keeps exactly the files all of whose component names
are non-hidden. -/
theorem walkEntry_eq_filter (e : Entry) :
    walkEntry e
      = (allFilesEntry e).filter (fun q => q.all (fun c => !(isHidden c))) := by
  cases e with
  | file n =>
    cases h : isHidden n with
    | true => simp [walkEntry, allFilesEntry, h]
    | false => simp [walkEntry, allFilesEntry, h]
  | dir n cs =>
    cases h : isHidden n with
    | true => simp [walkEntry, allFilesEntry, h, List.filter_map, Function.comp]
    | false => simp [walkEntry, allFilesEntry, h, walkEntry_list_eq_filter cs,
        List.filter_map, Function.comp_def, List.all_cons]

/-- List version of `walkEntry_eq_filter`. -/
theorem walkEntry_list_eq_filter (l : List Entry) :
    walkList l
      = (allFilesList l).filter (fun q => q.all (fun c => !(isHidden c))) := by
  cases l with
  | nil => simp [walkList, allFilesList]
  | cons e es =>
    simp [walkList, allFilesList, walkEntry_eq_filter e,
      walkEntry_list_eq_filter es, List.filter_append]

end

/-- C9: discovery exempts the source root itself from the hidden-name
exclusion — even when the root directory's own leaf name begins with `.`, a
path is discovered iff it is the root path extended by a chain of components
leading to a file in the tree, every one of which is non-hidden; only
non-root components beginning with `.` cause skipping (hidden directories
prune their subtree: no file below one satisfies the right-hand side). -/
theorem hidden_root_contents_discovered (rootPath : List String) (n : String)
    (cs : List Entry) (_hroot : isHidden n = true) (p : List String) :
    p ∈ DiscoverAllFiles rootPath (.dir n cs) ↔
      ∃ q, p = rootPath ++ q ∧ q ∈ allFilesList cs ∧
        q.all (fun c => !(isHidden c)) = true := by
  simp only [DiscoverAllFiles, walkEntry_list_eq_filter, List.mem_map,
    List.mem_filter]
  constructor
  · rintro ⟨q, ⟨hq, hall⟩, rfl⟩
    exact ⟨q, rfl, hq, hall⟩
  · rintro ⟨q, rfl, hq, hall⟩
    exact ⟨q, ⟨hq, hall⟩, rfl⟩

/-- Witness for `hidden_root_contents_discovered`: a root named `.hidden`
whose non-hidden child file is discovered while a hidden sibling, a hidden
subtree and everything below it are not. -/
theorem hidden_root_contents_discovered_witness :
    isHidden ".hidden" = true ∧
    ((["repo", ".hidden", "a.container"] : List String) ∈
      DiscoverAllFiles ["repo", ".hidden"]
        (.dir ".hidden"
          [.file "a.container", .file ".secret", .dir ".git" [.file "config"],
           .dir "sub" [.file "b.env"]])) ∧
    ¬ ((["repo", ".hidden", ".git", "config"] : List String) ∈
      DiscoverAllFiles ["repo", ".hidden"]
        (.dir ".hidden"
          [.file "a.container", .file ".secret", .dir ".git" [.file "config"],
           .dir "sub" [.file "b.env"]])) := by
  refine ⟨by decide, ?_, ?_⟩
  · exact (hidden_root_contents_discovered ["repo", ".hidden"] ".hidden" _
      (by decide) _).mpr ⟨["a.container"], rfl, by decide, by decide⟩
  · intro hmem
    obtain ⟨q, hq, hmem', hall⟩ := (hidden_root_contents_discovered
      ["repo", ".hidden"] ".hidden" _ (by decide) _).mp hmem
    have hq' : q = [".git", "config"] := by simpa using hq.symm
    rw [hq'] at hall
    exact absurd hall (by decide)

/-! ## Webhook server (`internal/webhook/server.go`)

The HTTP handler is modelled as a pure function from the request to the
outcome it writes.  Bytes are `Nat`s below 256.  HMAC-SHA256 itself is
abstracted as a parameter `mac : List Nat → List Nat` (the digest
`mac.Sum(nil)` the handler computes over the body it read with the loaded
secret); JSON decoding of `GitHubPushEvent` is abstracted as
`parse : List Nat → Option GitHubPushEvent`.  Reading the body through
`io.LimitReader(r.Body, 1<<20)` yields exactly the first `2^20` bytes and no
error, hence the 500 body-read-failure branch has no counterpart here. -/

/-- The lowercase hex digit for a nibble, as Go's `encoding/hex` emits. -/
def hexDigit (n : Nat) : Char :=
  if n < 10 then Char.ofNat (48 + n) else Char.ofNat (87 + n)

/-- Go `hex.EncodeToString`: two lowercase hex digits per byte. -/
def hexEncode (bs : List Nat) : String :=
  String.mk ((bs.map (fun b => [hexDigit (b / 16), hexDigit (b % 16)])).flatten)

/-- Go `strings.HasPrefix`. -/
def goHasPre (s pre : String) : Bool :=
  s.data.take pre.data.length = pre.data

/-- Go `strings.TrimPrefix`. -/
def goTrimPre (s pre : String) : String :=
  if goHasPre s pre then String.mk (s.data.drop pre.data.length) else s

/-- `Server.verifySignature`, with `digest` standing for the HMAC-SHA256 the
handler computes over the body it read (`mac.Sum(nil)`); `hmac.Equal` is a
constant-time byte-slice equality, i.e. string equality of the hex forms. -/
def verifySignature (digest : List Nat) (signature : String) : Bool :=
  if signature = "" then false
  else if ¬ (goHasPre signature "sha256=" = true) then false
  else decide (goTrimPre signature "sha256=" = hexEncode digest)

/-- The `ref` / `after` / `repository.full_name` fields decoded from the
payload. -/
structure GitHubPushEvent where
  ref : String
  after : String
  repoFullName : String
deriving DecidableEq, Repr

/-- The webhook-relevant configuration (`serve.allowed_event_types`,
`serve.allowed_refs`). -/
structure WebhookConfig where
  allowedEventTypes : List String
  allowedRefs : List String
deriving DecidableEq, Repr

/-- An incoming HTTP request as `handleWebhook` consumes it. -/
structure WebhookRequest where
  method : String
  contentType : String
  body : List Nat
  signatureHeader : String
  eventHeader : String

/-- What the handler writes back; `syncTriggered` also records that the
debounced sync was scheduled (the only branch that calls
`s.debounce.trigger`). -/
inductive WebhookResult where
  | methodNotAllowed
  | invalidContentType
  | invalidSignature
  | eventTypeIgnored
  | invalidPayload
  | refIgnored
  | syncTriggered
deriving DecidableEq, Repr

/-- `Server.isEventTypeAllowed`: empty allow-list admits everything. -/
def isEventTypeAllowed (cfg : WebhookConfig) (eventType : String) : Bool :=
  if cfg.allowedEventTypes.length = 0 then true
  else cfg.allowedEventTypes.any (fun allowed => eventType = allowed)

/-- `Server.isRefAllowed`: empty allow-list admits everything. -/
def isRefAllowed (cfg : WebhookConfig) (ref : String) : Bool :=
  if cfg.allowedRefs.length = 0 then true
  else cfg.allowedRefs.any (fun allowed => ref = allowed)

/-- `Server.handleWebhook`: method, content type, body read through the 1 MiB
`LimitReader`, signature, event-type filter, payload decode, ref filter, then
trigger. -/
def handleWebhook (cfg : WebhookConfig) (mac : List Nat → List Nat)
    (parse : List Nat → Option GitHubPushEvent) (r : WebhookRequest) :
    WebhookResult :=
  if ¬ (r.method = "POST") then .methodNotAllowed
  else if ¬ (r.contentType = "application/json") then .invalidContentType
  else
    let body := r.body.take (2 ^ 20)
    if ¬ (verifySignature (mac body) r.signatureHeader = true) then .invalidSignature
    else if ¬ (isEventTypeAllowed cfg r.eventHeader = true) then .eventTypeIgnored
    else match parse body with
      | none => .invalidPayload
      | some event =>
        if ¬ (isRefAllowed cfg event.ref = true) then .refIgnored
        else .syncTriggered

/-- C4 (amended): the handler never rejects a request for its size; it
processes every request exactly as if its body were the body's first
`2^20` bytes — bytes beyond 1 MiB are silently ignored by the
`LimitReader`, not refused. -/
theorem oversized_body_truncated_not_rejected (cfg : WebhookConfig)
    (mac : List Nat → List Nat) (parse : List Nat → Option GitHubPushEvent)
    (r : WebhookRequest) :
    handleWebhook cfg mac parse r
      = handleWebhook cfg mac parse
        { r with body := r.body.take (2 ^ 20) } := by
  simp [handleWebhook, List.take_take]

/-- C4 counterexample: a POST whose body is `2^20 + 1` bytes — strictly over
1 MiB — is *accepted* and triggers a sync when its signature matches the HMAC
of the truncated first 1 MiB (modelled by a `mac` returning `[0]`), instead
of being rejected as the claim states. -/
theorem handleWebhook_const_collaborators (cfg : WebhookConfig) (d : List Nat)
    (ev : GitHubPushEvent) (r : WebhookRequest)
    (hm : r.method = "POST") (hct : r.contentType = "application/json") :
    handleWebhook cfg (fun _ => d) (fun _ => some ev) r
      = if ¬ (verifySignature d r.signatureHeader = true) then .invalidSignature
        else if ¬ (isEventTypeAllowed cfg r.eventHeader = true) then .eventTypeIgnored
        else if ¬ (isRefAllowed cfg ev.ref = true) then .refIgnored
        else .syncTriggered := by
  simp [handleWebhook, hm, hct]

theorem oversized_body_accepted_counterexample :
    handleWebhook ⟨[], []⟩ (fun _ => [0])
        (fun _ => some ⟨"refs/heads/main", "c1", "me/repo"⟩)
        ⟨"POST", "application/json", List.replicate (2 ^ 20 + 1) 0,
          "sha256=00", "push"⟩
      = .syncTriggered ∧
    2 ^ 20 < (List.replicate (2 ^ 20 + 1) (0 : Nat)).length := by
  constructor
  · rw [handleWebhook_const_collaborators ⟨[], []⟩ [0]
      ⟨"refs/heads/main", "c1", "me/repo"⟩
      ⟨"POST", "application/json", List.replicate (2 ^ 20 + 1) 0,
        "sha256=00", "push"⟩ rfl rfl]
    decide
  · rw [List.length_replicate]
    exact Nat.lt_succ_self _

/-- ASCII lowercasing of one character (`A`-`Z` to `a`-`z`). -/
def lowerChar (c : Char) : Char :=
  if 'A' ≤ c ∧ c ≤ 'Z' then Char.ofNat (c.toNat + 32) else c

/-- C10: signature verification compares the hex digests as byte strings and
is therefore case-sensitive — any header whose hex part spells the correct
digest but differs from its lowercase encoding (some characters written in
uppercase) fails verification, and the handler rejects the request with 403
(`invalidSignature`). -/
theorem uppercase_hex_signature_rejected (cfg : WebhookConfig)
    (mac : List Nat → List Nat) (parse : List Nat → Option GitHubPushEvent)
    (r : WebhookRequest) (u : String)
    (hmethod : r.method = "POST") (hct : r.contentType = "application/json")
    (hsig : r.signatureHeader = "sha256=" ++ u)
    (_hlower : u.data.map lowerChar = (hexEncode (mac (r.body.take (2 ^ 20)))).data)
    (hne : ¬ (u = hexEncode (mac (r.body.take (2 ^ 20))))) :
    handleWebhook cfg mac parse r = .invalidSignature := by
  have h2 : (2 : Nat) ^ 20 = 1048576 := by norm_num
  rw [h2] at hne
  have hdata : ("sha256=" ++ u).data = "sha256=".data ++ u.data := rfl
  have hnonempty : ¬ (("sha256=" ++ u) = "") := by
    intro heq
    have h2 := congrArg String.data heq
    rw [hdata] at h2
    simp at h2
  have hpre : goHasPre ("sha256=" ++ u) "sha256=" = true := by
    simp [goHasPre, hdata, List.take_left]
  have htrim : goTrimPre ("sha256=" ++ u) "sha256=" = u := by
    simp only [goTrimPre, hpre, if_true]
    rw [hdata, List.drop_left]
  have hver : verifySignature (mac (r.body.take 1048576)) r.signatureHeader
      = false := by
    rw [hsig]
    simp [verifySignature, hnonempty, hpre, htrim, hne]
  simp [handleWebhook, hmethod, hct, hver]

/-- Witness for `uppercase_hex_signature_rejected`: digest byte `0xab`, whose
correct encoding is `ab`; the header carries `sha256=AB` and is rejected. -/
theorem uppercase_hex_signature_rejected_witness :
    handleWebhook ⟨[], []⟩ (fun _ => [171]) (fun _ => none)
        ⟨"POST", "application/json", [1, 2, 3], "sha256=AB", "push"⟩
      = .invalidSignature :=
  uppercase_hex_signature_rejected ⟨[], []⟩ (fun _ => [171]) (fun _ => none)
    ⟨"POST", "application/json", [1, 2, 3], "sha256=AB", "push"⟩ "AB"
    rfl rfl rfl (by decide) (by decide)

end Quadsyncd
